import Mathlib

/-!
Verification development for the carbon-data-lake data-lineage pipeline.

The repository declares the pipeline's cloud resources in
`lib/data-lineage/` (queues, a lineage table, lambda functions and their
event sources).  This file embeds those resource declarations as Lean
values, models the platform semantics the spec attributes to them
(at-least-once delivery with a visibility window, dead-letter diversion,
batching, idempotent keyed writes, tree reconstruction), and proves the
spec's claims about them.
-/

namespace CDL

/-! ## Durations (`aws-cdk-lib` `Duration`) -/

/-- A time span, stored in milliseconds, as produced by the CDK
`Duration.millis` / `Duration.seconds` / `Duration.minutes` /
`Duration.days` constructors used in the source. -/
structure Duration where
  toMillis : Nat
deriving DecidableEq, Repr

def Duration.millis (n : Nat) : Duration := ⟨n⟩

def Duration.seconds (n : Nat) : Duration := ⟨n * 1000⟩

def Duration.minutes (n : Nat) : Duration := ⟨n * 60 * 1000⟩

def Duration.days (n : Nat) : Duration := ⟨n * 24 * 60 * 60 * 1000⟩

/-! ## Queue declarations (`sqs.Queue` props from the source) -/

/-- Props of a dead-letter queue as declared in the source
(`recordQueueDLQ` / `traceQueueDLQ` in
`lib/data-lineage/carbonlake-qs-data-lineage.ts`). -/
structure DlqProps where
  queueName : String
  deliveryDelay : Duration
  visibilityTimeout : Duration
  enforceSSL : Bool
  retentionPeriod : Duration
deriving DecidableEq, Repr

/-- The `deadLetterQueue` item of a queue's props: the dead-letter queue
together with `maxReceiveCount`. -/
structure DeadLetterSpec where
  queue : DlqProps
  maxReceiveCount : Nat
deriving DecidableEq, Repr

/-- Props of a primary queue as declared in the source. -/
structure QueueProps where
  visibilityTimeout : Duration
  enforceSSL : Bool
  deadLetterQueue : DeadLetterSpec
deriving DecidableEq, Repr

/-- `recordQueueDLQ`: dead-letter queue of the record (input) channel. -/
def recordQueueDLQ : DlqProps :=
  { queueName := "recordQueueDLQ"
    deliveryDelay := Duration.millis 0
    visibilityTimeout := Duration.seconds 300
    enforceSSL := true
    retentionPeriod := Duration.days 14 }

/-- `cdlDataLineageQueue` (`recordQueue`): the durable event channel that
carries LineageEvents from the ingress lambda to the store writer. -/
def recordQueue : QueueProps :=
  { visibilityTimeout := Duration.seconds 300
    enforceSSL := true
    deadLetterQueue := { queue := recordQueueDLQ, maxReceiveCount := 1 } }

/-- `traceQueueDLQ`: dead-letter queue of the retrace channel. -/
def traceQueueDLQ : DlqProps :=
  { queueName := "traceQueueDLQ"
    deliveryDelay := Duration.millis 0
    visibilityTimeout := Duration.seconds 300
    enforceSSL := true
    retentionPeriod := Duration.days 14 }

/-- `cdlDataLineageTraceQueue` (`traceQueue`): the retrace channel that
carries RetraceRequests to the trace reconstructor. -/
def traceQueue : QueueProps :=
  { visibilityTimeout := Duration.seconds 300
    enforceSSL := true
    deadLetterQueue := { queue := traceQueueDLQ, maxReceiveCount := 1 } }

/-! ## Lineage table declaration (`dynamodb.Table` props from the source) -/

inductive AttributeType where
  | STRING
  | NUMBER
  | BINARY
deriving DecidableEq, Repr

/-- A key attribute (`{ name, type }`) of a table or index. -/
structure KeyAttribute where
  name : String
  attrType : AttributeType
deriving DecidableEq, Repr

inductive ProjectionType where
  | ALL
  | KEYS_ONLY
deriving DecidableEq, Repr

/-- Props of the lineage table as declared in the source. -/
structure TableProps where
  partitionKey : KeyAttribute
  sortKey : KeyAttribute
  timeToLiveAttribute : Option String := none
deriving DecidableEq, Repr

/-- A global secondary index (`addGlobalSecondaryIndex`): its own
partition key, independent of the table's. -/
structure GsiProps where
  indexName : String
  partitionKey : KeyAttribute
  projectionType : ProjectionType
deriving DecidableEq, Repr

/-- A local secondary index (`addLocalSecondaryIndex`): shares the
table's partition key and supplies only an alternative sort key. -/
structure LsiProps where
  indexName : String
  sortKey : KeyAttribute
  projectionType : ProjectionType
deriving DecidableEq, Repr

/-- `cdlDataLineageTable`: the Lineage Store table of the pipeline. -/
def cdlDataLineageTable : TableProps :=
  { partitionKey := { name := "root_id", attrType := .STRING }
    sortKey := { name := "node_id", attrType := .STRING }
    timeToLiveAttribute := some "ttl_expiry" }

/-- The `node-index` GSI added to `cdlDataLineageTable`: querying by a
specific child node regardless of tree. -/
def nodeIndex : GsiProps :=
  { indexName := "node-index"
    partitionKey := { name := "node_id", attrType := .STRING }
    projectionType := .ALL }

/-- The `action-index` LSI added to `cdlDataLineageTable`: querying by
operation type within one tree. -/
def actionIndex : LsiProps :=
  { indexName := "action-index"
    sortKey := { name := "action_taken", attrType := .STRING }
    projectionType := .ALL }

/-- The effective key pair of a local secondary index: an LSI always
inherits the partition key of its table, so queries on it are scoped to a
single partition (here: a single lineage tree). -/
def lsiEffectiveKeys (t : TableProps) (i : LsiProps) : KeyAttribute × KeyAttribute :=
  (t.partitionKey, i.sortKey)

/-- `carbonlakeDataLineageTable`: the legacy quickstart variant of the
lineage table declared in `lib/data-lineage/carbonlake-data-lineage-stack.ts`
(sort key `child_id`, no TTL attribute). -/
def carbonlakeDataLineageTable : TableProps :=
  { partitionKey := { name := "root_id", attrType := .STRING }
    sortKey := { name := "child_id", attrType := .STRING } }

/-- The `child-index` GSI of the legacy quickstart table. -/
def childIndex : GsiProps :=
  { indexName := "child-index"
    partitionKey := { name := "child_id", attrType := .STRING }
    projectionType := .ALL }

/-! ## Event sources and lambda declarations -/

/-- Props of an `SqsEventSource`.  The CDK defaults for a standard queue
are a batch size of 10 and no batching window. -/
structure SqsEventSourceProps where
  batchSize : Nat := 10
  maxBatchingWindow : Option Duration := none
deriving DecidableEq, Repr

/-- The event source wiring `recordQueue` to the store-writer lambda
(`SqsEventSource(recordQueue, { batchSize: 100, maxBatchingWindow:
Duration.minutes(1) })`). -/
def recordEventSource : SqsEventSourceProps :=
  { batchSize := 100
    maxBatchingWindow := some (Duration.minutes 1) }

/-- The event source wiring `traceQueue` to the trace lambda
(`SqsEventSource(this.traceQueue)`, all defaults). -/
def traceEventSource : SqsEventSourceProps := {}

/-- Props of a `CdlPythonLambda` that matter here. -/
structure LambdaProps where
  lambdaName : String
  handler : String
  timeout : Option Duration := none
deriving DecidableEq, Repr

/-- `cdlDataLineageInput`: the ingress lambda. -/
def inputFunction : LambdaProps :=
  { lambdaName := "cdlDataLineageInput", handler := "app.lambda_handler" }

/-- `cdlDataLineageHandler`: the store-writer lambda. -/
def dataLineageOutputFunction : LambdaProps :=
  { lambdaName := "cdlDataLineageHandler", handler := "app.lambda_handler" }

/-- `cdlDataLineageTraceHandler`: the trace-reconstructor lambda, with a
5-minute processing timeout. -/
def traceFunction : LambdaProps :=
  { lambdaName := "cdlDataLineageTraceHandler"
    handler := "app.lambda_handler"
    timeout := some (Duration.minutes 5) }

/-! ## Grants

The source attaches exactly these permissions:
`recordQueue.grantSendMessages(this.inputFunction)`,
`table.grantWriteData(dataLineageOutputFunction)`,
`table.grantReadData(traceFunction)`,
`props.archiveBucket.grantReadWrite(traceFunction)`. -/

inductive Principal where
  | inputFn
  | outputFn
  | traceFn
deriving DecidableEq, Repr

inductive Resource where
  | lineageTable
  | archiveBucket
  | recordChannel
  | traceChannel
deriving DecidableEq, Repr

inductive Access where
  | read
  | write
  | send
deriving DecidableEq, Repr

/-- The grant list of the data-lineage stack, one triple per grant call
in the source (`grantReadWrite` expands to read and write). -/
def grants : List (Principal × Resource × Access) :=
  [ (.inputFn, .recordChannel, .send)
  , (.outputFn, .lineageTable, .write)
  , (.traceFn, .lineageTable, .read)
  , (.traceFn, .archiveBucket, .read)
  , (.traceFn, .archiveBucket, .write) ]

/-! ## Durable event channel semantics

Modelled from the spec: the delivery/redelivery behaviour of a channel is
provided by the managed queue platform, not written in the repository; the
spec describes it (at-least-once delivery, visibility window, diversion to
a dead-letter channel after a configured maximum delivery-attempt count).
The model below tracks one message's lifecycle, parameterised by the
channel's `maxReceiveCount` from the embedded queue props. -/

/-- Lifecycle state of a single message on a durable event channel.
`rc` counts delivery attempts so far. -/
inductive MsgState where
  | visible (rc : Nat)
  | inflight (rc : Nat)
  | acked
  | deadLettered
deriving DecidableEq, Repr

/-- One transition of a message on a channel with attempt budget `m`:
a visible message can be delivered (incrementing its attempt count); an
in-flight message can be acknowledged by its consumer; an in-flight
message whose visibility window expires unacknowledged reappears when its
attempt count is below the budget, and moves to the dead-letter channel
once the budget is reached.  No transition drops the message. -/
inductive ChannelStep (m : Nat) : MsgState → MsgState → Prop
  | deliver (rc : Nat) : ChannelStep m (.visible rc) (.inflight (rc + 1))
  | ack (rc : Nat) : ChannelStep m (.inflight rc) .acked
  | reappear (rc : Nat) (h : rc < m) : ChannelStep m (.inflight rc) (.visible rc)
  | divert (rc : Nat) (h : m ≤ rc) : ChannelStep m (.inflight rc) .deadLettered

/-- Reachability along channel transitions. -/
def ChannelReach (m : Nat) : MsgState → MsgState → Prop :=
  Relation.ReflTransGen (ChannelStep m)

/-! ## Dead-letter queue retention

Modelled from the spec: a parked message is kept by the dead-letter
channel for its configured `retentionPeriod`; the platform purges it once
its age exceeds that period. -/

/-- Whether a dead-lettered message of the given age (in milliseconds) is
still retained by the dead-letter queue `q`. -/
def retainedAt (q : DlqProps) (age : Nat) : Bool :=
  age ≤ q.retentionPeriod.toMillis

/-! ## Batching

Modelled from the spec: the event-source poller hands the consumer up to
`batchSize` messages per invocation, or whatever has accumulated when the
batching window closes.  With a backlog present, the poller drains it in
full batches followed by one final partial batch. -/

/-- Fuelled batch splitting; each round removes one batch of at most
`cap` messages from the front of the backlog. -/
def batchesAux (cap : Nat) : Nat → List α → List (List α)
  | 0, _ => []
  | _, [] => []
  | fuel + 1, x :: xs => (x :: xs).take cap :: batchesAux cap fuel ((x :: xs).drop cap)

/-- Split a backlog of pending messages into the consumer invocations the
poller produces: successive batches of at most `cap` messages.  A backlog
of length `n` needs at most `n` rounds, so that much fuel drains it. -/
def deliverInBatches (cap : Nat) (backlog : List α) : List (List α) :=
  batchesAux cap backlog.length backlog

/-! ## Lineage events, records and the store writer

Modelled from the spec: the handler code of the store-writer lambda
(`lambda/load_lineage_data/`) is not in the repository.  Per the spec, the
writer stores, for each delivered LineageEvent, a LineageRecord keyed by
`node_id` (globally unique), idempotently: re-delivery produces no
duplicate or conflicting record, and the stored content is that of the
last successfully processed delivery. -/

/-- A lineage event as carried on the record channel. -/
structure LineageEvent where
  root_id : String
  node_id : String
  parent_id : Option String
  action_taken : String
  ttl_expiry : Nat
deriving DecidableEq, Repr

/-- A lineage record as persisted in the Lineage Store. -/
structure LineageRecord where
  root_id : String
  node_id : String
  parent_id : Option String
  action_taken : String
  ttl_expiry : Nat
deriving DecidableEq, Repr

/-- The record the writer persists for an event. -/
def toRecord (e : LineageEvent) : LineageRecord :=
  { root_id := e.root_id
    node_id := e.node_id
    parent_id := e.parent_id
    action_taken := e.action_taken
    ttl_expiry := e.ttl_expiry }

/-- Modelled from the spec: one store write — a keyed upsert.  The store
holds the new record and drops any previous record with the same
`node_id` (the table's put semantics on the unique key). -/
def putRecord (s : List LineageRecord) (e : LineageEvent) : List LineageRecord :=
  toRecord e :: s.filter (fun r => r.node_id != e.node_id)

/-- Process a sequence of deliveries, in delivery order. -/
def processAll (s : List LineageRecord) (es : List LineageEvent) : List LineageRecord :=
  es.foldl putRecord s

/-- Modelled from the spec: TTL expiry purges records whose `ttl_expiry`
has passed; no other pipeline component deletes records. -/
def expireRecords (now : Nat) (s : List LineageRecord) : List LineageRecord :=
  s.filter (fun r => now ≤ r.ttl_expiry)

/-! ## Retrace request state machine

Modelled from the spec: the per-request state machine
`Received → Traversing → (Archived | Retrying → Received | DeadLettered)`
of the trace reconstructor, with the attempt clock bounded by the
function's processing timeout `T` (milliseconds).  There is no cancel
transition; an attempt that reaches the timeout aborts into `retrying`,
and only channel redelivery restarts it. -/

inductive RetraceState where
  | received
  | traversing
  | archived
  | retrying
  | deadLettered
deriving DecidableEq, Repr

/-- One transition of a retrace attempt on a reconstructor with timeout
budget `T`; the `Nat` component is the attempt's elapsed time. -/
inductive RetraceStep (T : Nat) : RetraceState × Nat → RetraceState × Nat → Prop
  | start (e : Nat) : RetraceStep T (.received, e) (.traversing, e)
  | work (e : Nat) (h : e < T) : RetraceStep T (.traversing, e) (.traversing, e + 1)
  | archive (e : Nat) : RetraceStep T (.traversing, e) (.archived, e)
  | abort (e : Nat) (h : T ≤ e) : RetraceStep T (.traversing, e) (.retrying, e)
  | redeliver (e : Nat) : RetraceStep T (.retrying, e) (.received, 0)
  | exhaust (e : Nat) : RetraceStep T (.retrying, e) (.deadLettered, e)

/-- Reachability along retrace transitions. -/
def RetraceReach (T : Nat) : RetraceState × Nat → RetraceState × Nat → Prop :=
  Relation.ReflTransGen (RetraceStep T)

/-! ## Trace reconstructor

Modelled from the spec: the handler code of the trace lambda
(`lambda/rebuild_trace/`) is not in the repository.  Per the spec, on a
RetraceRequest for `root_id` it walks the Lineage Store from the root,
recursively resolving children, and assembles the lineage tree.  A record
is a child of the synthetic root when its `parent_id` is `none`, and a
child of node `m` when its `parent_id` is `some m`; only records of the
requested tree (`root_id` matches) are traversed. -/

/-- The records of tree `rid` hanging off parent slot `p`. -/
def treeChildren (s : List LineageRecord) (rid : String) (p : Option String) :
    List LineageRecord :=
  s.filter (fun r => r.root_id == rid && r.parent_id == p)

/-- A reconstructed lineage tree. -/
inductive LineageTree where
  | node (id : String) (children : List LineageTree)
deriving Repr

/-- Recursive reconstruction below parent slot `p`, with enough fuel;
the reconstructor runs it with fuel `s.length`, which covers any
well-founded store since a chain cannot be longer than the store. -/
def buildChildren : Nat → List LineageRecord → String → Option String → List LineageTree
  | 0, _, _, _ => []
  | fuel + 1, s, rid, p =>
    (treeChildren s rid p).map
      (fun r => .node r.node_id (buildChildren fuel s rid (some r.node_id)))

/-- Reconstruct the lineage tree of `rid` from the store. -/
def retrace (s : List LineageRecord) (rid : String) : LineageTree :=
  .node rid (buildChildren s.length s rid none)

mutual

/-- All node identifiers of a tree, root first. -/
def treeNodes : LineageTree → List String
  | .node i cs => i :: forestNodes cs

/-- All node identifiers of a list of trees. -/
def forestNodes : List LineageTree → List String
  | [] => []
  | t :: ts => treeNodes t ++ forestNodes ts

end

/-- `ReachSlot s rid p n`: node `n` of tree `rid` is reachable in the
store below parent slot `p` (a chain of records of tree `rid`, each the
parent of the next, leads from slot `p` down to the record of `n`). -/
inductive ReachSlot (s : List LineageRecord) (rid : String) :
    Option String → String → Prop
  | here (r : LineageRecord) (p : Option String) (n : String) (hr : r ∈ s)
      (hroot : r.root_id = rid) (hp : r.parent_id = p) (hn : r.node_id = n) :
      ReachSlot s rid p n
  | deeper (r : LineageRecord) (p : Option String) (n : String) (hr : r ∈ s)
      (hroot : r.root_id = rid) (hp : r.parent_id = p)
      (tail : ReachSlot s rid (some r.node_id) n) :
      ReachSlot s rid p n

/-- A node is reachable from the root when a record chain grounds at
parent slot `none`. -/
def Reachable (s : List LineageRecord) (rid : String) (n : String) : Prop :=
  ReachSlot s rid none n

/-- The depth of a parent slot under a depth assignment on nodes. -/
def rankSlot (rank : String → Nat) : Option String → Nat
  | none => 0
  | some m => rank m + 1

/-- Well-formedness of tree `rid` in the store: node identifiers are
unique, the root identifier names no record, every record's parent exists
in the store within the same tree (no missing or expired ancestors), and
depths are coherent (the tree is acyclic). -/
structure StoreWF (s : List LineageRecord) (rid : String) : Prop where
  nodup : (s.map (fun r => r.node_id)).Nodup
  rootNotNode : ∀ r ∈ s, r.node_id ≠ rid
  parentPresent : ∀ r ∈ s, r.parent_id = none ∨
    ∃ r' ∈ s, r.parent_id = some r'.node_id ∧ r'.root_id = r.root_id
  ranked : ∃ rank : String → Nat, ∀ r ∈ s, r.root_id = rid →
    rank r.node_id = rankSlot rank r.parent_id

/-! ### Concrete scenario: events A, B, C under root R, delivered C, B, A -/

def eventA : LineageEvent :=
  { root_id := "R", node_id := "A", parent_id := none
    action_taken := "CREATED", ttl_expiry := 100 }

def eventB : LineageEvent :=
  { root_id := "R", node_id := "B", parent_id := some "A"
    action_taken := "TRANSFORMED", ttl_expiry := 100 }

def eventC : LineageEvent :=
  { root_id := "R", node_id := "C", parent_id := some "B"
    action_taken := "ENRICHED", ttl_expiry := 100 }

/-- The store after the writer processes deliveries in order C, B, A. -/
def scenarioStore : List LineageRecord :=
  processAll [] [eventC, eventB, eventA]

/-! ### Lemmas about the reconstruction -/

theorem mem_treeChildren {s : List LineageRecord} {rid : String} {p : Option String}
    {r : LineageRecord} :
    r ∈ treeChildren s rid p ↔ r ∈ s ∧ r.root_id = rid ∧ r.parent_id = p := by
  simp [treeChildren, List.mem_filter, beq_iff_eq]

theorem treeNodes_node (i : String) (cs : List LineageTree) :
    treeNodes (.node i cs) = i :: forestNodes cs := by
  simp [treeNodes]

theorem forestNodes_cons (t : LineageTree) (ts : List LineageTree) :
    forestNodes (t :: ts) = treeNodes t ++ forestNodes ts := by
  simp [forestNodes]

theorem mem_forestNodes_map {α : Type} (l : List α) (f : α → LineageTree) (n : String) :
    n ∈ forestNodes (l.map f) ↔ ∃ x ∈ l, n ∈ treeNodes (f x) := by
  induction l with
  | nil => simp [forestNodes]
  | cons x xs ih => simp [forestNodes_cons, List.mem_append, ih]

/-- Soundness: every node the reconstruction emits below slot `p` is
reachable below slot `p`. -/
theorem sound {s : List LineageRecord} {rid : String} :
    ∀ fuel (p : Option String) (n : String),
      n ∈ forestNodes (buildChildren fuel s rid p) → ReachSlot s rid p n := by
  intro fuel
  induction fuel with
  | zero => intro p n h; simp [buildChildren, forestNodes] at h
  | succ fuel ih =>
    intro p n h
    rw [buildChildren, mem_forestNodes_map] at h
    obtain ⟨r, hrmem, hn⟩ := h
    obtain ⟨hrs, hroot, hp⟩ := mem_treeChildren.mp hrmem
    rw [treeNodes_node] at hn
    rcases List.mem_cons.mp hn with h1 | h2
    · exact .here r p n hrs hroot hp h1.symm
    · exact .deeper r p n hrs hroot hp (ih _ _ h2)

/-- Every reachable node names a record of the store. -/
theorem reach_is_record {s : List LineageRecord} {rid : String} {p : Option String}
    {n : String} (h : ReachSlot s rid p n) : ∃ r ∈ s, r.node_id = n := by
  induction h with
  | here r p n hr _ _ hn => exact ⟨r, hr, hn⟩
  | deeper _ _ _ _ _ _ _ ih => exact ih

/-- Depth coherence of a rank assignment with the store. -/
def RankCoherent (s : List LineageRecord) (rid : String) (rank : String → Nat) : Prop :=
  ∀ r ∈ s, r.root_id = rid → rank r.node_id = rankSlot rank r.parent_id

/-- A reachable node lies at least as deep as its slot. -/
theorem rank_le {s : List LineageRecord} {rid : String} {rank : String → Nat}
    (hcoh : RankCoherent s rid rank) :
    ∀ (p : Option String) (n : String), ReachSlot s rid p n →
      rankSlot rank p ≤ rank n := by
  intro p n h
  induction h with
  | here r p n hr hroot hp hn =>
    have := hcoh r hr hroot
    rw [hp, hn] at this
    omega
  | deeper r p n hr hroot hp _ ih =>
    have h1 := hcoh r hr hroot
    rw [hp] at h1
    have h2 : rankSlot rank (some r.node_id) = rank r.node_id + 1 := rfl
    omega

/-- In a store with unique node identifiers, the record of a node is
unique. -/
theorem record_unique {s : List LineageRecord}
    (hnd : (s.map (fun r => r.node_id)).Nodup) :
    ∀ r ∈ s, ∀ r' ∈ s, r.node_id = r'.node_id → r = r' := by
  intro r hr r' hr' h
  exact List.inj_on_of_nodup_map hnd hr hr' h

/-- Two slots of equal depth reaching the same node are the same slot:
ancestor chains are unique. -/
theorem slot_unique {s : List LineageRecord} {rid : String} {rank : String → Nat}
    (hcoh : RankCoherent s rid rank)
    (hnd : (s.map (fun r => r.node_id)).Nodup) :
    ∀ (p : Option String) (n : String), ReachSlot s rid p n →
      ∀ (p' : Option String), ReachSlot s rid p' n →
        rankSlot rank p = rankSlot rank p' → p = p' := by
  intro p n h1
  induction h1 with
  | here r p n hr hroot hp hn =>
    intro p' h2 hrk
    cases h2 with
    | here r' _p _n hr' hroot' hp' hn' =>
      have e0 : r'.node_id = r.node_id := by rw [hn', hn]
      have e1 : r' = r := record_unique hnd r' hr' r hr e0
      rw [← hp, ← hp', e1]
    | deeper r'' _p _n hr'' hroot'' hp'' tl =>
      exfalso
      have e1 : rank n = rankSlot rank p := by
        have := hcoh r hr hroot; rw [hp, hn] at this; exact this
      have e2 : rank r''.node_id = rankSlot rank p' := by
        have := hcoh r'' hr'' hroot''; rw [hp''] at this; exact this
      have e3 := rank_le hcoh _ _ tl
      have e4 : rankSlot rank (some r''.node_id) = rank r''.node_id + 1 := rfl
      omega
  | deeper r p n hr hroot hp tl ih =>
    intro p' h2 hrk
    cases h2 with
    | here r' _p _n hr' hroot' hp' hn' =>
      exfalso
      have e1 : rank r.node_id = rankSlot rank p := by
        have := hcoh r hr hroot; rw [hp] at this; exact this
      have e2 : rank n = rankSlot rank p' := by
        have := hcoh r' hr' hroot'; rw [hp', hn'] at this; exact this
      have e3 := rank_le hcoh _ _ tl
      have e4 : rankSlot rank (some r.node_id) = rank r.node_id + 1 := rfl
      omega
    | deeper r' _p _n hr' hroot' hp' tl' =>
      have e1 : rank r.node_id = rankSlot rank p := by
        have := hcoh r hr hroot; rw [hp] at this; exact this
      have e2 : rank r'.node_id = rankSlot rank p' := by
        have := hcoh r' hr' hroot'; rw [hp'] at this; exact this
      have e5 : rankSlot rank (some r.node_id) = rankSlot rank (some r'.node_id) := by
        have e3 : rankSlot rank (some r.node_id) = rank r.node_id + 1 := rfl
        have e4 : rankSlot rank (some r'.node_id) = rank r'.node_id + 1 := rfl
        omega
      have e6 := ih _ tl' e5
      have e7 : r.node_id = r'.node_id := Option.some.inj e6
      have e8 : r = r' := record_unique hnd r hr r' hr' e7
      rw [← hp, ← hp', e8]

/-- Completeness: with fuel matching the slot's remaining depth budget,
the reconstruction emits every node reachable below the slot. -/
theorem complete_aux {s : List LineageRecord} {rid : String} {rank : String → Nat}
    (hcoh : RankCoherent s rid rank)
    (hbound : ∀ r ∈ s, r.root_id = rid → rank r.node_id < s.length) :
    ∀ (p : Option String) (n : String), ReachSlot s rid p n →
      ∀ fuel, rankSlot rank p + fuel = s.length →
        n ∈ forestNodes (buildChildren fuel s rid p) := by
  intro p n h
  induction h with
  | here r p n hr hroot hp hn =>
    intro fuel hfuel
    have hrk : rank r.node_id = rankSlot rank p := by
      have := hcoh r hr hroot; rw [hp] at this; exact this
    have hb := hbound r hr hroot
    obtain ⟨fuel', rfl⟩ : ∃ f', fuel = f' + 1 := by
      cases fuel with
      | zero => omega
      | succ f' => exact ⟨f', rfl⟩
    rw [buildChildren, mem_forestNodes_map]
    exact ⟨r, mem_treeChildren.mpr ⟨hr, hroot, hp⟩, by
      rw [treeNodes_node, hn]; exact List.mem_cons_self _ _⟩
  | deeper r p n hr hroot hp _ ih =>
    intro fuel hfuel
    have hrk : rank r.node_id = rankSlot rank p := by
      have := hcoh r hr hroot; rw [hp] at this; exact this
    have hb := hbound r hr hroot
    obtain ⟨fuel', rfl⟩ : ∃ f', fuel = f' + 1 := by
      cases fuel with
      | zero => omega
      | succ f' => exact ⟨f', rfl⟩
    rw [buildChildren, mem_forestNodes_map]
    refine ⟨r, mem_treeChildren.mpr ⟨hr, hroot, hp⟩, ?_⟩
    rw [treeNodes_node]
    refine List.mem_cons_of_mem _ (ih fuel' ?_)
    have : rankSlot rank (some r.node_id) = rank r.node_id + 1 := rfl
    omega

theorem range_reverse_succ (n : Nat) :
    (List.range (n + 1)).reverse = n :: (List.range n).reverse := by
  simp [List.range_succ]

/-- A parent chain of length `k + 1` exists above a node of rank `k`:
its ranks enumerate `k, …, 0` and its members are store nodes. -/
theorem chain_exists {s : List LineageRecord} {rid : String} {rank : String → Nat}
    (hcoh : RankCoherent s rid rank)
    (hpp : ∀ r ∈ s, r.parent_id = none ∨
      ∃ r' ∈ s, r.parent_id = some r'.node_id ∧ r'.root_id = r.root_id) :
    ∀ k, ∀ r ∈ s, r.root_id = rid → rank r.node_id = k →
      ∃ l : List String, l.map rank = (List.range (k + 1)).reverse ∧
        ∀ x ∈ l, x ∈ s.map (fun r => r.node_id) := by
  intro k
  induction k with
  | zero =>
    intro r hr hroot hrk
    refine ⟨[r.node_id], ?_, ?_⟩
    · simp [hrk, range_reverse_succ]
    · intro x hx
      simp only [List.mem_singleton] at hx
      subst hx
      exact List.mem_map_of_mem _ hr
  | succ k ih =>
    intro r hr hroot hrk
    have hco := hcoh r hr hroot
    rcases hpp r hr with hnone | ⟨r', hr', hpeq, hroot'⟩
    · rw [hnone] at hco
      simp [rankSlot] at hco
      omega
    · rw [hpeq] at hco
      have hco' : rank r.node_id = rank r'.node_id + 1 := hco
      have hroot'' : r'.root_id = rid := by rw [hroot', hroot]
      have hrk' : rank r'.node_id = k := by omega
      obtain ⟨l, hmap, hsub⟩ := ih r' hr' hroot'' hrk'
      refine ⟨r.node_id :: l, ?_, ?_⟩
      · rw [List.map_cons, hmap, hrk]
        simp [range_reverse_succ]
      · intro x hx
        rcases List.mem_cons.mp hx with h | h
        · subst h; exact List.mem_map_of_mem _ hr
        · exact hsub x h

/-- In a well-formed store, ranks are bounded by the store size. -/
theorem rank_lt_length {s : List LineageRecord} {rid : String} {rank : String → Nat}
    (hcoh : RankCoherent s rid rank)
    (hpp : ∀ r ∈ s, r.parent_id = none ∨
      ∃ r' ∈ s, r.parent_id = some r'.node_id ∧ r'.root_id = r.root_id) :
    ∀ r ∈ s, r.root_id = rid → rank r.node_id < s.length := by
  intro r hr hroot
  obtain ⟨l, hmap, hsub⟩ := chain_exists hcoh hpp (rank r.node_id) r hr hroot rfl
  have hmnd : (l.map rank).Nodup := by
    rw [hmap]
    exact List.nodup_reverse.mpr (List.nodup_range _)
  have hlnd : l.Nodup := hmnd.of_map
  have hsp : List.Subperm l (s.map (fun r => r.node_id)) := hlnd.subperm hsub
  have hle := hsp.length_le
  have hlen : l.length = rank r.node_id + 1 := by
    have := congrArg List.length hmap
    simpa using this
  rw [List.length_map] at hle
  omega

/-- The reconstruction below any slot repeats no node. -/
theorem forest_nodup {s : List LineageRecord} {rid : String} {rank : String → Nat}
    (hcoh : RankCoherent s rid rank)
    (hnd : (s.map (fun r => r.node_id)).Nodup) :
    ∀ fuel (p : Option String),
      (forestNodes (buildChildren fuel s rid p)).Nodup := by
  intro fuel
  induction fuel with
  | zero => intro p; simp [buildChildren, forestNodes]
  | succ fuel ih =>
    intro p
    rw [buildChildren]
    have main : ∀ l : List LineageRecord,
        (∀ x ∈ l, x ∈ s ∧ x.root_id = rid ∧ x.parent_id = p) →
        ((l.map (fun r => r.node_id)).Nodup) →
        (forestNodes (l.map (fun r =>
          LineageTree.node r.node_id (buildChildren fuel s rid (some r.node_id))))).Nodup := by
      intro l
      induction l with
      | nil => intro _ _; simp [forestNodes]
      | cons r l ihl =>
        intro hl hlnd
        rw [List.map_cons, forestNodes_cons, List.nodup_append]
        obtain ⟨hrs, hroot, hp⟩ := hl r (List.mem_cons_self r l)
        have hrrank : rank r.node_id = rankSlot rank p := by
          have := hcoh r hrs hroot; rw [hp] at this; exact this
        refine ⟨?_, ?_, ?_⟩
        · rw [treeNodes_node, List.nodup_cons]
          constructor
          · intro hmem
            have hre := sound fuel _ _ hmem
            have hle := rank_le hcoh _ _ hre
            have h2 : rankSlot rank (some r.node_id) = rank r.node_id + 1 := rfl
            omega
          · exact ih (some r.node_id)
        · refine ihl (fun x hx => hl x (List.mem_cons_of_mem _ hx)) ?_
          rw [List.map_cons] at hlnd
          exact hlnd.of_cons
        · intro a ha hb
          rw [treeNodes_node] at ha
          rw [mem_forestNodes_map] at hb
          obtain ⟨r₂, hr₂, ha₂⟩ := hb
          obtain ⟨hr₂s, hroot₂, hp₂⟩ := hl r₂ (List.mem_cons_of_mem _ hr₂)
          have hrank₂ : rank r₂.node_id = rankSlot rank p := by
            have := hcoh r₂ hr₂s hroot₂; rw [hp₂] at this; exact this
          have hne : r.node_id ≠ r₂.node_id := by
            rw [List.map_cons, List.nodup_cons] at hlnd
            intro h
            exact hlnd.1 (h ▸ List.mem_map_of_mem _ hr₂)
          rw [treeNodes_node] at ha₂
          rcases List.mem_cons.mp ha with ha' | ha' <;>
            rcases List.mem_cons.mp ha₂ with hb' | hb'
          · exact hne (ha'.symm.trans hb')
          · have hre := sound fuel _ _ hb'
            have hle := rank_le hcoh _ _ hre
            have h2 : rankSlot rank (some r₂.node_id) = rank r₂.node_id + 1 := rfl
            rw [ha'] at hle
            omega
          · have hre := sound fuel _ _ ha'
            have hle := rank_le hcoh _ _ hre
            have h2 : rankSlot rank (some r.node_id) = rank r.node_id + 1 := rfl
            rw [hb'] at hle
            omega
          · have hra := sound fuel _ _ ha'
            have hrb := sound fuel _ _ hb'
            have heq : rankSlot rank (some r.node_id) =
                rankSlot rank (some r₂.node_id) := by
              have h1 : rankSlot rank (some r.node_id) = rank r.node_id + 1 := rfl
              have h2 : rankSlot rank (some r₂.node_id) = rank r₂.node_id + 1 := rfl
              omega
            have := slot_unique hcoh hnd _ _ hra _ hrb heq
            exact hne (Option.some.inj this)
    refine main (treeChildren s rid p) (fun x hx => mem_treeChildren.mp hx) ?_
    exact List.Nodup.sublist ((List.filter_sublist s).map _) hnd

/-- Full correctness of the reconstruction on a well-formed store: no
node repeats, and the emitted node set is the root plus exactly the
reachable nodes. -/
theorem retrace_correct {s : List LineageRecord} {rid : String}
    (hwf : StoreWF s rid) :
    (treeNodes (retrace s rid)).Nodup ∧
      ∀ n, n ∈ treeNodes (retrace s rid) ↔ (n = rid ∨ Reachable s rid n) := by
  obtain ⟨rank, hcoh⟩ := hwf.ranked
  have hbound := rank_lt_length hcoh hwf.parentPresent
  constructor
  · rw [retrace, treeNodes_node, List.nodup_cons]
    constructor
    · intro hmem
      obtain ⟨r, hr, hnid⟩ := reach_is_record (sound _ _ _ hmem)
      exact hwf.rootNotNode r hr hnid
    · exact forest_nodup hcoh hwf.nodup _ _
  · intro n
    rw [retrace, treeNodes_node, List.mem_cons]
    constructor
    · rintro (h | h)
      · exact Or.inl h
      · exact Or.inr (sound _ _ _ h)
    · rintro (h | h)
      · exact Or.inl h
      · refine Or.inr (complete_aux hcoh hbound _ _ h s.length ?_)
        simp [rankSlot]

/-! ### Helper lemmas for batching and the store writer -/

/-- Every batch the poller produces respects the size cap. -/
theorem batchesAux_le {α : Type} (cap : Nat) :
    ∀ (fuel : Nat) (l : List α), ∀ b ∈ batchesAux cap fuel l, b.length ≤ cap := by
  intro fuel
  induction fuel with
  | zero => intro l b hb; simp [batchesAux] at hb
  | succ fuel ih =>
    intro l b hb
    cases l with
    | nil => simp [batchesAux] at hb
    | cons x xs =>
      simp only [batchesAux] at hb
      rcases List.mem_cons.mp hb with h | h
      · subst h
        rw [List.length_take]
        exact Nat.min_le_left _ _
      · exact ih _ b h

/-- Re-delivering an event the store already processed leaves the store
unchanged. -/
theorem putRecord_idem (s : List LineageRecord) (e : LineageEvent) :
    putRecord (putRecord s e) e = putRecord s e := by
  simp only [putRecord, List.filter_cons]
  have h1 : ((toRecord e).node_id != e.node_id) = false := by
    simp [toRecord]
  rw [h1]
  simp only [Bool.false_eq_true, if_false, List.filter_filter]
  congr 1
  apply List.filter_congr
  intro r _
  cases h : r.node_id == e.node_id <;> simp [bne, h]

theorem putRecord_filter_self (s : List LineageRecord) (e : LineageEvent) :
    (putRecord s e).filter (fun r => r.node_id == e.node_id) = [toRecord e] := by
  simp only [putRecord, List.filter_cons]
  have h1 : ((toRecord e).node_id == e.node_id) = true := by simp [toRecord]
  rw [h1]
  simp only [if_true, List.filter_filter]
  have h2 : s.filter (fun r => (r.node_id == e.node_id) && (r.node_id != e.node_id)) = [] := by
    apply List.filter_eq_nil_iff.mpr
    intro r _
    cases h : r.node_id == e.node_id <;> simp [bne, h]
  rw [h2]

theorem putRecord_filter_other (s : List LineageRecord) (e : LineageEvent)
    (n : String) (h : e.node_id ≠ n) :
    (putRecord s e).filter (fun r => r.node_id == n) =
      s.filter (fun r => r.node_id == n) := by
  simp only [putRecord, List.filter_cons]
  have h1 : ((toRecord e).node_id == n) = false := by
    simp [toRecord]
    exact h
  rw [h1]
  simp only [Bool.false_eq_true, if_false, List.filter_filter]
  apply List.filter_congr
  intro r _
  cases hc : r.node_id == n
  · simp
  · have : r.node_id = n := by simpa using hc
    have hb : (r.node_id != e.node_id) = true := by
      simp [bne, this]
      intro he
      exact h he.symm
    simp [hb]

/-- The store after a delivery sequence holds, for each node, exactly
the record of the last delivery naming that node. -/
theorem processAll_filter (n : String) :
    ∀ (es : List LineageEvent) (s : List LineageRecord),
      (processAll s es).filter (fun r => r.node_id == n) =
        match (es.filter (fun e => e.node_id == n)).getLast? with
        | some e' => [toRecord e']
        | none => s.filter (fun r => r.node_id == n) := by
  intro es
  induction es with
  | nil => intro s; rfl
  | cons e es ih =>
    intro s
    have hstep : processAll s (e :: es) = processAll (putRecord s e) es := rfl
    rw [hstep, ih]
    by_cases he : e.node_id = n
    · rw [List.filter_cons_of_pos (by simp [he])]
      cases hf : es.filter (fun e => e.node_id == n) with
      | nil =>
        simp only [List.getLast?_nil, List.getLast?_singleton]
        rw [← he]
        exact putRecord_filter_self s e
      | cons b t =>
        rw [List.getLast?_cons_cons]
        cases hg : (b :: t).getLast? with
        | none => exact absurd (List.getLast?_eq_none_iff.mp hg) (List.cons_ne_nil b t)
        | some x => rfl
    · rw [List.filter_cons_of_neg (by simp [he])]
      cases hf : es.filter (fun e => e.node_id == n) with
      | nil =>
        simp only [List.getLast?_nil]
        exact putRecord_filter_other s e n he
      | cons b t => rfl

/-- Well-formedness of the concrete scenario store. -/
theorem scenarioWF : StoreWF scenarioStore "R" := by
  refine ⟨?_, ?_, ?_, ?_⟩
  · decide
  · decide
  · decide
  · refine ⟨fun n => if n = "A" then 0 else if n = "B" then 1 else 2, ?_⟩
    decide

/-! ## Claim theorems -/

/-- C1, counterexample: the retrace channel's delivery-attempt budget
(`maxReceiveCount`) is 1, so a retrace request whose first delivery goes
unacknowledged moves directly to the dead-letter channel and can never
reappear for a retry — there is no redelivery-and-retry phase, contrary
to the claim that the operation is redelivered and retried with a
several-minute budget between attempts. -/
theorem retrace_retry_budget_cex :
    traceQueue.deadLetterQueue.maxReceiveCount = 1 ∧
    ChannelStep traceQueue.deadLetterQueue.maxReceiveCount
      (.inflight 1) .deadLettered ∧
    ¬ ChannelStep traceQueue.deadLetterQueue.maxReceiveCount
      (.inflight 1) (.visible 1) := by
  refine ⟨rfl, .divert 1 (by decide), ?_⟩
  intro h
  cases h with
  | reappear rc hlt => exact absurd hlt (by decide)

/-- C1, amended: a retrace request whose attempt finds an inconsistency
and goes unacknowledged is held for the retrace channel's 5-minute
visibility window; the channel's delivery-attempt budget is 1, so that
first failed attempt already exhausts the budget and the request then
moves to the dead-letter channel — it is never redelivered, but it is
dead-lettered rather than silently dropped. -/
theorem retrace_first_failure_deadlettered :
    traceQueue.visibilityTimeout = Duration.minutes 5 ∧
    traceQueue.deadLetterQueue.maxReceiveCount = 1 ∧
    ChannelStep traceQueue.deadLetterQueue.maxReceiveCount
      (.inflight 1) .deadLettered ∧
    ∀ st, ChannelStep traceQueue.deadLetterQueue.maxReceiveCount
      (.inflight 1) st → st = .acked ∨ st = .deadLettered := by
  refine ⟨by decide, rfl, .divert 1 (by decide), ?_⟩
  intro st h
  cases h with
  | ack rc => exact Or.inl rfl
  | reappear rc hlt => exact absurd hlt (by decide)
  | divert rc hge => exact Or.inr rfl

/-- Witness for the amended C1 theorem at the dead-letter transition. -/
theorem retrace_first_failure_deadlettered_w :
    MsgState.deadLettered = MsgState.acked ∨
      MsgState.deadLettered = MsgState.deadLettered :=
  retrace_first_failure_deadlettered.2.2.2 MsgState.deadLettered
    retrace_first_failure_deadlettered.2.2.1

set_option maxRecDepth 8000 in
/-- C2: the record channel's event source is configured with batch size
100 and a 1-minute batching window; every delivered batch holds at most
100 messages, and a backlog of 150 events is drained in exactly two
store-writer invocations, one of 100 and one of 50 events. -/
theorem record_channel_batching :
    recordEventSource.batchSize = 100 ∧
    recordEventSource.maxBatchingWindow = some (Duration.minutes 1) ∧
    (∀ (backlog : List Nat) (b : List Nat),
      b ∈ deliverInBatches recordEventSource.batchSize backlog →
        b.length ≤ recordEventSource.batchSize) ∧
    (deliverInBatches recordEventSource.batchSize (List.range 150)).map
      List.length = [100, 50] := by
  refine ⟨rfl, rfl, ?_, by decide⟩
  intro backlog b hb
  exact batchesAux_le _ _ _ b hb

set_option maxRecDepth 8000 in
/-- Witness for the C2 theorem at the concrete 150-event backlog. -/
theorem record_channel_batching_w :
    ((List.range 150).take 100).length ≤ recordEventSource.batchSize :=
  record_channel_batching.2.2.1 (List.range 150)
    ((List.range 150).take 100) (by decide)

/-- C3: the Lineage Store's external schema is exactly partition key
`root_id` (string), sort key `node_id` (string), a secondary index keyed
by `node_id` alone, a secondary index on `action_taken` scoped within a
single tree (it inherits the table's partition key `root_id`), and TTL
attribute `ttl_expiry`. -/
theorem lineage_store_schema :
    cdlDataLineageTable.partitionKey =
      { name := "root_id", attrType := AttributeType.STRING } ∧
    cdlDataLineageTable.sortKey =
      { name := "node_id", attrType := AttributeType.STRING } ∧
    nodeIndex.partitionKey =
      { name := "node_id", attrType := AttributeType.STRING } ∧
    lsiEffectiveKeys cdlDataLineageTable actionIndex =
      ({ name := "root_id", attrType := AttributeType.STRING },
        { name := "action_taken", attrType := AttributeType.STRING }) ∧
    cdlDataLineageTable.timeToLiveAttribute = some "ttl_expiry" :=
  ⟨rfl, rfl, rfl, rfl, rfl⟩

/-- C4: on both durable event channels, a message whose delivery-attempt
count has reached the configured maximum moves to the dead-letter channel
when its visibility window expires — and from the dead-letter state no
transition exists, so it is never redelivered; below the maximum, an
unacknowledged message reappears after the visibility window. -/
theorem channel_deadletter_policy :
    ∀ q ∈ [recordQueue, traceQueue],
      (∀ st, ¬ ChannelStep q.deadLetterQueue.maxReceiveCount .deadLettered st) ∧
      (∀ rc, q.deadLetterQueue.maxReceiveCount ≤ rc →
        ChannelStep q.deadLetterQueue.maxReceiveCount (.inflight rc) .deadLettered ∧
        ∀ st, ChannelStep q.deadLetterQueue.maxReceiveCount (.inflight rc) st →
          st = .acked ∨ st = .deadLettered) ∧
      (∀ rc, rc < q.deadLetterQueue.maxReceiveCount →
        ChannelStep q.deadLetterQueue.maxReceiveCount (.inflight rc) (.visible rc)) := by
  intro q _
  refine ⟨?_, ?_, ?_⟩
  · intro st h
    cases h
  · intro rc hge
    refine ⟨.divert rc hge, ?_⟩
    intro st h
    cases h with
    | ack rc => exact Or.inl rfl
    | reappear rc hlt => exact absurd hge (by omega)
    | divert rc h2 => exact Or.inr rfl
  · intro rc hlt
    exact .reappear rc hlt

/-- Witness for the C4 theorem on the record channel. -/
theorem channel_deadletter_policy_w :
    ChannelStep recordQueue.deadLetterQueue.maxReceiveCount
      (.inflight 1) .deadLettered ∧
    ChannelStep recordQueue.deadLetterQueue.maxReceiveCount
      (.inflight 0) (.visible 0) := by
  have h := channel_deadletter_policy recordQueue (by simp)
  exact ⟨(h.2.1 1 (by decide)).1, h.2.2 0 (by decide)⟩

/-- C5: the store writer is idempotent (re-processing a delivered event
leaves the store unchanged), and after any delivery sequence — including
duplicate deliveries — the store holds, for each node, exactly one record
whose content is that of the last processed delivery naming that node. -/
theorem store_writer_idempotent_last_wins :
    (∀ (s : List LineageRecord) (e : LineageEvent),
      putRecord (putRecord s e) e = putRecord s e) ∧
    (∀ (es : List LineageEvent) (n : String),
      (processAll [] es).filter (fun r => r.node_id == n) =
        (((es.filter (fun e => e.node_id == n)).getLast?).map toRecord).toList) := by
  refine ⟨putRecord_idem, ?_⟩
  intro es n
  rw [processAll_filter n es []]
  cases (es.filter (fun e => e.node_id == n)).getLast? with
  | none => rfl
  | some e' => rfl

/-- C6: on any well-formed store (all records present, unique node ids,
coherent depths), the reconstructed tree contains exactly the root plus
the nodes reachable from it, each exactly once; and in the concrete
scenario (events A, B, C under root R ingested in order C, B, A),
retrace of R produces the chain R, A, B, C. -/
theorem trace_reconstructor_exact :
    (∀ (s : List LineageRecord) (rid : String), StoreWF s rid →
      (treeNodes (retrace s rid)).Nodup ∧
      ∀ n, n ∈ treeNodes (retrace s rid) ↔ (n = rid ∨ Reachable s rid n)) ∧
    retrace scenarioStore "R" =
      LineageTree.node "R" [.node "A" [.node "B" [.node "C" []]]] :=
  ⟨fun _ _ hwf => retrace_correct hwf, rfl⟩

/-- Witness for the C6 theorem on the concrete scenario store. -/
theorem trace_reconstructor_exact_w :
    (treeNodes (retrace scenarioStore "R")).Nodup ∧
    ("C" ∈ treeNodes (retrace scenarioStore "R") ↔
      ("C" = "R" ∨ Reachable scenarioStore "R" "C")) := by
  have h := trace_reconstructor_exact.1 scenarioStore "R" scenarioWF
  exact ⟨h.1, h.2 "C"⟩

/-- One retrace transition never pushes the elapsed clock past the
timeout budget. -/
theorem retraceStep_bounded {T : Nat} {a b : RetraceState × Nat}
    (h : RetraceStep T a b) (ha : a.2 ≤ T) : b.2 ≤ T := by
  cases h with
  | start e => exact ha
  | work e hlt => exact hlt
  | archive e => exact ha
  | abort e hge => exact ha
  | redeliver e => exact Nat.zero_le T
  | exhaust e => exact ha

/-- Elapsed time in any run of a retrace request stays within the
timeout budget. -/
theorem retraceReach_bounded {T : Nat} :
    ∀ st e, RetraceReach T (.received, 0) (st, e) → e ≤ T := by
  have inv : ∀ b, RetraceReach T (.received, 0) b → b.2 ≤ T := by
    intro b hb
    induction hb with
    | refl => exact Nat.zero_le T
    | tail _ hstep ih => exact retraceStep_bounded hstep ih
  intro st e h
  exact inv (st, e) h

/-- C7: the trace reconstructor is configured with a 5-minute processing
timeout; in the retrace state machine every attempt's elapsed time is
bounded by the timeout, an attempt that reaches the timeout aborts, and
from the aborted (retrying) state the only transitions are channel
redelivery (restarting the attempt) or dead-lettering — there is no
cancel operation. -/
theorem retrace_timeout_no_cancel :
    traceFunction.timeout = some (Duration.minutes 5) ∧
    (∀ T st e, RetraceReach T (.received, 0) (st, e) → e ≤ T) ∧
    (∀ T e, T ≤ e → RetraceStep T (.traversing, e) (.retrying, e)) ∧
    (∀ T e st e', RetraceStep T (.retrying, e) (st, e') →
      (st = .received ∧ e' = 0) ∨ (st = .deadLettered ∧ e' = e)) := by
  refine ⟨rfl, ?_, ?_, ?_⟩
  · intro T st e h
    exact retraceReach_bounded st e h
  · intro T e hge
    exact .abort e hge
  · intro T e st e' h
    cases h with
    | redeliver e => exact Or.inl ⟨rfl, rfl⟩
    | exhaust e => exact Or.inr ⟨rfl, rfl⟩

/-- Witness for the C7 theorem at the configured 5-minute budget. -/
theorem retrace_timeout_no_cancel_w :
    RetraceStep 300000 (.traversing, 300000) (.retrying, 300000) ∧
    ((RetraceState.received = RetraceState.received ∧ 0 = 0) ∨
      (RetraceState.received = RetraceState.deadLettered ∧ 0 = 300000)) :=
  ⟨retrace_timeout_no_cancel.2.2.1 300000 300000 (Nat.le_refl _),
    retrace_timeout_no_cancel.2.2.2 300000 300000 RetraceState.received 0
      (RetraceStep.redeliver 300000)⟩

/-- C8: the trace reconstructor's only grant on the lineage table is
read (the sole write grant belongs to the store writer), re-processing a
stored event leaves the store unchanged, and the only removal operation
is TTL expiry, which drops exactly the records whose `ttl_expiry` has
passed. -/
theorem lineage_record_immutable :
    (grants.filter (fun g => g.1 == Principal.traceFn &&
        g.2.1 == Resource.lineageTable) =
      [(Principal.traceFn, Resource.lineageTable, Access.read)]) ∧
    (grants.filter (fun g => g.2.1 == Resource.lineageTable &&
        g.2.2 == Access.write) =
      [(Principal.outputFn, Resource.lineageTable, Access.write)]) ∧
    (∀ (s : List LineageRecord) (e : LineageEvent),
      putRecord (putRecord s e) e = putRecord s e) ∧
    (∀ (now : Nat) (s : List LineageRecord) (r : LineageRecord),
      r ∈ expireRecords now s ↔ (r ∈ s ∧ now ≤ r.ttl_expiry)) := by
  refine ⟨by decide, by decide, putRecord_idem, ?_⟩
  intro now s r
  simp [expireRecords, List.mem_filter]

/-- C9, counterexample: both dead-letter queues are configured with a
finite 14-day retention period, so a parked message older than 14 days
is no longer retained — events in the dead-letter state are not kept
indefinitely until an operator intervenes. -/
theorem dlq_retention_finite_cex :
    recordQueueDLQ.retentionPeriod = Duration.days 14 ∧
    traceQueueDLQ.retentionPeriod = Duration.days 14 ∧
    retainedAt recordQueueDLQ (Duration.days 15).toMillis = false ∧
    retainedAt traceQueueDLQ (Duration.days 15).toMillis = false :=
  ⟨rfl, rfl, by decide, by decide⟩

/-- C9, amended: a dead-lettered event is parked, not discarded, for the
dead-letter channel's configured 14-day retention period, on both the
record channel's and the retrace channel's dead-letter channels; an
operator must intervene within that window, after which the platform
purges the message. -/
theorem dlq_retention_14_days :
    ∀ q ∈ [recordQueueDLQ, traceQueueDLQ],
      q.retentionPeriod = Duration.days 14 ∧
      ∀ age, age ≤ (Duration.days 14).toMillis → retainedAt q age = true := by
  intro q hq
  have hr : q.retentionPeriod = Duration.days 14 := by
    rcases List.mem_cons.mp hq with h | h
    · subst h; rfl
    · rcases List.mem_cons.mp h with h2 | h2
      · subst h2; rfl
      · simp at h2
  refine ⟨hr, ?_⟩
  intro age hage
  simp only [retainedAt, hr]
  exact decide_eq_true hage

/-- Witness for the amended C9 theorem on the record channel's DLQ. -/
theorem dlq_retention_14_days_w :
    retainedAt recordQueueDLQ 0 = true :=
  (dlq_retention_14_days recordQueueDLQ (List.mem_cons_self _ _)).2 0 (Nat.zero_le _)

/-- C10: every event channel declared by the pipeline — the record
channel, the retrace channel, and both dead-letter channels — is
configured to enforce SSL on transport. -/
theorem channels_enforce_ssl :
    recordQueue.enforceSSL = true ∧ traceQueue.enforceSSL = true ∧
    recordQueueDLQ.enforceSSL = true ∧ traceQueueDLQ.enforceSSL = true :=
  ⟨rfl, rfl, rfl, rfl⟩

end CDL
